import Mathlib

/-!
Verification of the SAX-based XML importer (`sax_import/sax_import.py`).

Shallow embedding of the event-driven core of the importer.  The XML
event producer (the Python `xml.sax` module) is modelled as a list of
typed events; the `SAXParser` content handler becomes a state-transition
function over an explicit `State` record.  The Python `defaultdict(list)`
of annotations is modelled as an insertion-ordered association list,
`start_pos` as an association list with overwrite-on-insert, and
exceptions (`KeyError`, `AttributeError`) as `Except` errors that abort
the run.

Python class-attribute semantics matter for the importer: `text`,
`annotations` and `start_pos` are class-level mutable collections shared
by every `SAXParser` instance, while `text_len` and `open_tags` are
rebound with `+=` and therefore become per-instance fields starting from
the class value `0`.  This split is captured by `ClassState` / `newParser`.
-/

namespace SaxImport

/-- The three SAX callbacks the importer implements, as a typed event:
`startElement(name, attrs)`, `endElement(name)`, `characters(content)`.
Attributes are the ordered `(name, value)` pairs of `attrs`. -/
inductive Event where
  | startE (name : String) (attrs : List (String × String))
  | endE (name : String)
  | chars (content : String)
deriving DecidableEq, Repr

/-- A value stored in the annotations mapping: attribute annotations hold
the string value of the attribute; element annotations hold the pair
`((start_pos[name], open_tags), (text_len, open_tags))` built in
`endElement`.  Depths are `Int` because `open_tags` is decremented without
a lower bound. -/
inductive Value where
  | attr (v : String)
  | span (s : (Nat × Int) × (Nat × Int))
deriving DecidableEq, Repr

/-- Python exceptions that can escape the handler callbacks:
`KeyError` from `self.start_pos[name]` in `endElement`, and
`AttributeError` from `self.attributes` in `XMLStructureHandler.startElement`. -/
inductive PyErr where
  | keyError
  | attributeError
deriving DecidableEq, Repr

/-- The mutable fields of `SAXParser` that the callbacks touch:
`text` (list of appended chunks), `annotations` (insertion-ordered mapping
from annotation key to list of values), `start_pos` (mapping from element
name to recorded text offset), `text_len` and `open_tags`. -/
structure State where
  text : List String
  annotations : List (String × List Value)
  start_pos : List (String × Nat)
  text_len : Nat
  open_tags : Int
deriving DecidableEq, Repr

/-- First value stored under key `k` in an association list of annotation
entries (Python dict lookup; keys are unique by construction). -/
def lookupAnn (anns : List (String × List Value)) (k : String) : Option (List Value) :=
  match anns with
  | [] => none
  | (k2, vs) :: rest => if k2 = k then some vs else lookupAnn rest k

/-- Python `defaultdict(list)` append: `annotations[k].append(v)` appends `v` to
the existing entry for `k`, or creates the entry `(k, [v])` at the end of
the insertion order if `k` is new. -/
def appendAnn (anns : List (String × List Value)) (k : String) (v : Value) :
    List (String × List Value) :=
  match anns with
  | [] => [(k, [v])]
  | (k2, vs) :: rest =>
    if k2 = k then (k2, vs ++ [v]) :: rest else (k2, vs) :: appendAnn rest k v

/-- Lookup of `start_pos[k]`. -/
def lookupPos (ps : List (String × Nat)) (k : String) : Option Nat :=
  match ps with
  | [] => none
  | (k2, n) :: rest => if k2 = k then some n else lookupPos rest k

/-- Assignment `start_pos[k] = n`: overwrite the existing entry or insert a new one.
Note the importer stores a single slot per element name, not a stack. -/
def setPos (ps : List (String × Nat)) (k : String) (n : Nat) : List (String × Nat) :=
  match ps with
  | [] => [(k, n)]
  | (k2, m) :: rest =>
    if k2 = k then (k2, n) :: rest else (k2, m) :: setPos rest k n

/-- The whitespace characters matched by the Python regex class `\s` on
ASCII input, used by `blank_pattern` (the anchored regex matching one or
more `\s` characters and nothing else). -/
def isPySpace (c : Char) : Bool :=
  c = ' ' || c = '\t' || c = '\n' || c = '\r' || c = '\x0b' || c = '\x0c'

/-- Test `blank_pattern.match(content)`: it succeeds iff the chunk is nonempty and
consists solely of whitespace (`\s+` requires at least one character, so
the empty string is *not* blank). -/
def isBlank (s : String) : Bool :=
  s.length != 0 && s.toList.all isPySpace

/-- Model of `SAXParser.startElement`: increment `open_tags`, record
`start_pos[name] = text_len`, and append each attribute value to
`annotations[name + ":" + a]`, in attribute order. -/
def startElement (st : State) (name : String) (attrs : List (String × String)) : State :=
  { st with
    open_tags := st.open_tags + 1,
    start_pos := setPos st.start_pos name st.text_len,
    annotations := attrs.foldl
      (fun anns av => appendAnn anns (name ++ ":" ++ av.1) (Value.attr av.2))
      st.annotations }

/-- Model of `SAXParser.endElement`: append
`((start_pos[name], open_tags), (text_len, open_tags))` to
`annotations[name]` and decrement `open_tags`; `self.start_pos[name]`
raises `KeyError` when the name was never recorded.  The recorded entry is
not removed. -/
def endElement (st : State) (name : String) : Except PyErr State :=
  match lookupPos st.start_pos name with
  | none => Except.error PyErr.keyError
  | some p =>
    Except.ok { st with
      annotations := appendAnn st.annotations name
        (Value.span ((p, st.open_tags), (st.text_len, st.open_tags))),
      open_tags := st.open_tags - 1 }

/-- Model of `SAXParser.characters`: chunks matching `blank_pattern` are discarded;
any other chunk is appended to `text` and counted into `text_len`. -/
def characters (st : State) (content : String) : State :=
  if isBlank content then st
  else { st with text := st.text ++ [content], text_len := st.text_len + content.length }

/-- Concatenation of the text chunks: the Python join of `self.text`
with the empty separator. -/
def concatList : List String → String
  | [] => ""
  | s :: rest => s ++ concatList rest

/-- Model of `SAXParser.getText`. -/
def getText (st : State) : String := concatList st.text

/-- Dispatch one SAX event to the matching callback. -/
def step (st : State) : Event → Except PyErr State
  | Event.startE name attrs => Except.ok (startElement st name attrs)
  | Event.endE name => endElement st name
  | Event.chars c => Except.ok (characters st c)

/-- Run the handler over a whole event stream; an exception aborts the
parse (no partial state is observed after it). -/
def runEvents (st : State) : List Event → Except PyErr State
  | [] => Except.ok st
  | e :: es =>
    match step st e with
    | Except.error err => Except.error err
    | Except.ok st2 => runEvents st2 es

/-- The class-level mutable collections of `SAXParser` (`text`,
`annotations`, `start_pos`), shared by all instances: the callbacks
mutate them in place and never rebind the attribute names. -/
structure ClassState where
  text : List String
  annotations : List (String × List Value)
  start_pos : List (String × Nat)
deriving DecidableEq, Repr

/-- Constructor call `SAXParser()`: a fresh instance sees the current class-level
collections, while `text_len` and `open_tags` (rebound via `+=` in the
callbacks) start from the class value `0` for each instance. -/
def newParser (cs : ClassState) : State :=
  { text := cs.text, annotations := cs.annotations, start_pos := cs.start_pos,
    text_len := 0, open_tags := 0 }

/-- The class-level collections as left behind by a completed parse. -/
def classOf (st : State) : ClassState :=
  { text := st.text, annotations := st.annotations, start_pos := st.start_pos }

/-- Class state at interpreter start: all collections empty. -/
def initClass : ClassState := { text := [], annotations := [], start_pos := [] }

/-- The state of the first parser instance on a fresh system. -/
def initState : State := newParser initClass

/-- What the `parse` importer function writes out for one source file:
`Text(...).write(parser.getText())`, `SourceStructure(...).write(list(parser.annotations.keys()))`,
and each `Output(annotation_name)` with `parser.annotations[annotation_name]`. -/
structure ParseOutput where
  text : String
  struct : List String
  annotations : List (String × List Value)
deriving DecidableEq, Repr

/-- The `parse` importer entry point: construct a `SAXParser` instance
over the current class state, feed it the events of the document, and write
out text, structure and annotations; also returns the class state the
parse leaves behind for the next instance. -/
def parse (cs : ClassState) (es : List Event) : Except PyErr (ParseOutput × ClassState) :=
  match runEvents (newParser cs) es with
  | Except.error e => Except.error e
  | Except.ok st =>
    Except.ok ({ text := getText st, struct := st.annotations.map Prod.fst,
                 annotations := st.annotations }, classOf st)

/-- Model of `XMLStructure.XMLStructureHandler.startElement`: with attributes
present, append `name + ":" + a` for each attribute name to the
`annotations` list; with no attributes the code evaluates
`self.attributes`, a field that exists neither on the instance nor on the
class (the class defines `annotations`), so Python raises
`AttributeError`. -/
def structStartElement (annots : List String) (name : String)
    (attrs : List (String × String)) : Except PyErr (List String) :=
  if attrs.isEmpty then Except.error PyErr.attributeError
  else Except.ok (annots ++ attrs.map (fun av => name ++ ":" ++ av.1))

/-- Feed an event stream to `XMLStructureHandler` (only start events do
anything; the defaults of `ContentHandler` for `endElement` and
`characters` are no-ops). -/
def structRun (annots : List String) : List Event → Except PyErr (List String)
  | [] => Except.ok annots
  | Event.startE n attrs :: es =>
    match structStartElement annots n attrs with
    | Except.error e => Except.error e
    | Except.ok annots2 => structRun annots2 es
  | Event.endE _ :: es => structRun annots es
  | Event.chars _ :: es => structRun annots es

/-- The Python slice `s[a:b]` for `a ≤ b ≤ len(s)`. -/
def pySlice (s : String) (a b : Nat) : String :=
  (((s.toList).drop a).take (b - a)).asString

/-- Well-formed SAX event streams: the sequences `xml.sax` delivers for a
well-formed XML fragment (a forest of properly nested elements with
character data in between). -/
inductive WF : List Event → Prop where
  | nil : WF []
  | chars (c : String) {es : List Event} : WF es → WF (Event.chars c :: es)
  | elem (n : String) (attrs : List (String × String)) {inner rest : List Event} :
      WF inner → WF rest →
      WF (Event.startE n attrs :: (inner ++ Event.endE n :: rest))

/-- Element names of the start events of a stream, in order. -/
def startNames : List Event → List String
  | [] => []
  | Event.startE n _ :: es => n :: startNames es
  | Event.endE _ :: es => startNames es
  | Event.chars _ :: es => startNames es

/-- Element names of the end events of a stream, in order. -/
def endNames : List Event → List String
  | [] => []
  | Event.startE _ _ :: es => endNames es
  | Event.endE n :: es => n :: endNames es
  | Event.chars _ :: es => endNames es

/-- The `name:attribute` annotation keys contributed by the start events
of a stream, in order. -/
def attrKeys : List Event → List String
  | [] => []
  | Event.startE n attrs :: es =>
      attrs.map (fun av => n ++ ":" ++ av.1) ++ attrKeys es
  | Event.endE _ :: es => attrKeys es
  | Event.chars _ :: es => attrKeys es

/-- The chronological sequence of annotation keys the handler inserts
into (or appends to) the store: `name:attribute` keys at each start
event, the element-name key at each end event. -/
def keysTouched : List Event → List String
  | [] => []
  | Event.startE n attrs :: es =>
      attrs.map (fun av => n ++ ":" ++ av.1) ++ keysTouched es
  | Event.endE n :: es => n :: keysTouched es
  | Event.chars _ :: es => keysTouched es

/-- The key-order effect of one `defaultdict` insertion: an already-seen
key leaves the key sequence unchanged, a new key goes to the end. -/
def addNew (acc : List String) (k : String) : List String :=
  if k ∈ acc then acc else acc ++ [k]

/-- Deduplicate a key sequence keeping the first occurrence of each key. -/
def firstSeen (ks : List String) : List String := ks.foldl addNew []

/-- The list of values stored under key `k` (empty when `k` is absent). -/
def annVals (anns : List (String × List Value)) (k : String) : List Value :=
  (lookupAnn anns k).getD []

/-- The two depth components of a span value agree (attribute values
count as trivially fine). -/
def depthsEqual : Value → Bool
  | Value.attr _ => true
  | Value.span s => decide (s.1.2 = s.2.2)

/-- Every value in the store passes `depthsEqual`. -/
def valuesOk (anns : List (String × List Value)) : Prop :=
  ∀ p ∈ anns, ∀ v ∈ p.2, depthsEqual v = true

/-- The parser state after the document `<a>x</a>`: used to instantiate
the pending-start persistence properties at a concrete input. -/
def exampleDocState : State :=
  { text := ["x"], annotations := [("a", [Value.span ((0,1),(1,1))])],
    start_pos := [("a",0)], text_len := 1, open_tags := 0 }

/-! ## Basic lemmas about the association-list operations -/

theorem lookupPos_setPos (ps : List (String × Nat)) (k k2 : String) (n : Nat) :
    lookupPos (setPos ps k n) k2 = if k = k2 then some n else lookupPos ps k2 := by
  induction ps with
  | nil =>
    by_cases h : k = k2 <;> simp [setPos, lookupPos, h]
  | cons hd tl ih =>
    obtain ⟨k3, m⟩ := hd
    by_cases h3 : k3 = k
    · subst h3
      by_cases h : k3 = k2 <;> simp [setPos, lookupPos, h]
    · by_cases h : k3 = k2
      · subst h
        have hk : ¬ k = k3 := fun hh => h3 hh.symm
        simp [setPos, lookupPos, h3, hk]
      · simp [setPos, lookupPos, h3, h, ih]

theorem keys_appendAnn (anns : List (String × List Value)) (k : String) (v : Value) :
    (appendAnn anns k v).map Prod.fst = addNew (anns.map Prod.fst) k := by
  induction anns with
  | nil => simp [appendAnn, addNew]
  | cons hd tl ih =>
    obtain ⟨k2, vs⟩ := hd
    by_cases h : k2 = k
    · subst h
      simp [appendAnn, addNew]
    · have hk : ¬ k = k2 := fun hh => h hh.symm
      simp only [appendAnn, if_neg h, List.map_cons, ih, addNew]
      by_cases hm : k ∈ tl.map Prod.fst
      · simp [hm, hk]
      · simp [hm, hk]

theorem lookupAnn_appendAnn (anns : List (String × List Value)) (k k2 : String) (v : Value) :
    lookupAnn (appendAnn anns k v) k2 =
      if k = k2 then some (annVals anns k ++ [v]) else lookupAnn anns k2 := by
  induction anns with
  | nil =>
    by_cases h : k = k2 <;> simp [appendAnn, lookupAnn, annVals, h]
  | cons hd tl ih =>
    obtain ⟨k3, vs⟩ := hd
    by_cases h3 : k3 = k
    · subst h3
      by_cases h : k3 = k2 <;> simp [appendAnn, lookupAnn, annVals, h]
    · by_cases h : k3 = k2
      · subst h
        have hk : ¬ k = k3 := fun hh => h3 hh.symm
        simp [appendAnn, lookupAnn, h3, hk]
      · simp [appendAnn, lookupAnn, h3, h, ih, annVals]

theorem lookupAnn_mem (anns : List (String × List Value)) (k : String)
    (vs : List Value) (h : lookupAnn anns k = some vs) : (k, vs) ∈ anns := by
  induction anns with
  | nil => simp [lookupAnn] at h
  | cons hd tl ih =>
    obtain ⟨k2, vs2⟩ := hd
    by_cases h2 : k2 = k
    · subst h2
      simp [lookupAnn] at h
      simp [h]
    · simp [lookupAnn, h2] at h
      exact List.mem_cons_of_mem _ (ih h)

theorem mem_addNew (acc : List String) (k k2 : String) :
    k ∈ addNew acc k2 ↔ k ∈ acc ∨ k = k2 := by
  unfold addNew
  by_cases h : k2 ∈ acc
  · simp only [if_pos h]
    constructor
    · exact Or.inl
    · rintro (hk | rfl)
      · exact hk
      · exact h
  · simp [if_neg h]

theorem mem_foldl_addNew (ks : List String) (acc : List String) (k : String) :
    k ∈ ks.foldl addNew acc ↔ k ∈ acc ∨ k ∈ ks := by
  induction ks generalizing acc with
  | nil => simp
  | cons k2 tl ih =>
    simp only [List.foldl_cons, ih, mem_addNew, List.mem_cons]
    tauto

theorem nodup_addNew (acc : List String) (k : String) (h : acc.Nodup) :
    (addNew acc k).Nodup := by
  unfold addNew
  by_cases hm : k ∈ acc
  · simpa [hm] using h
  · simp [hm, List.nodup_append, h]

theorem nodup_foldl_addNew (ks : List String) (acc : List String) (h : acc.Nodup) :
    (ks.foldl addNew acc).Nodup := by
  induction ks generalizing acc with
  | nil => simpa
  | cons k2 tl ih => exact ih _ (nodup_addNew _ _ h)

theorem concatList_append (l : List String) (c : String) :
    concatList (l ++ [c]) = concatList l ++ c := by
  induction l with
  | nil => simp [concatList]
  | cons s tl ih => simp [concatList, ih, String.append_assoc]

theorem string_append_cancel_left (s : String) {t1 t2 : String}
    (h : s ++ t1 = s ++ t2) : t1 = t2 := by
  apply String.ext
  have hd := congrArg String.data h
  simp only [String.data_append] at hd
  exact List.append_cancel_left hd

/-! ## Lemmas about whole runs of the handler -/

theorem runEvents_append (xs ys : List Event) (st : State) :
    runEvents st (xs ++ ys) =
      match runEvents st xs with
      | Except.error e => Except.error e
      | Except.ok st2 => runEvents st2 ys := by
  induction xs generalizing st with
  | nil => rfl
  | cons e tl ih =>
    simp only [List.cons_append, runEvents]
    cases step st e with
    | error err => rfl
    | ok st2 => exact ih st2

theorem startNames_append (xs ys : List Event) :
    startNames (xs ++ ys) = startNames xs ++ startNames ys := by
  induction xs with
  | nil => rfl
  | cons e tl ih => cases e <;> simp [startNames, ih]

theorem endNames_append (xs ys : List Event) :
    endNames (xs ++ ys) = endNames xs ++ endNames ys := by
  induction xs with
  | nil => rfl
  | cons e tl ih => cases e <;> simp [endNames, ih]

theorem mem_keysTouched (es : List Event) (k : String) :
    k ∈ keysTouched es ↔ k ∈ endNames es ∨ k ∈ attrKeys es := by
  induction es with
  | nil => simp [keysTouched, endNames, attrKeys]
  | cons e tl ih =>
    cases e <;>
      simp only [keysTouched, endNames, attrKeys, List.mem_append, List.mem_cons, ih] <;>
      tauto

/-- The `start_pos` mapping only ever grows: after a successful run a name is
recorded iff it was recorded before or some start event of the run bears
it. -/
theorem posKeys_runEvents (es : List Event) (st st2 : State) (n : String)
    (h : runEvents st es = Except.ok st2) :
    (lookupPos st2.start_pos n).isSome ↔
      (lookupPos st.start_pos n).isSome ∨ n ∈ startNames es := by
  induction es generalizing st with
  | nil =>
    simp only [runEvents, Except.ok.injEq] at h
    subst h
    simp [startNames]
  | cons e tl ih =>
    cases e with
    | startE m attrs =>
      simp only [runEvents, step] at h
      rw [ih _ h]
      simp only [startElement, lookupPos_setPos, startNames, List.mem_cons]
      by_cases hm : m = n
      · subst hm
        simp
      · have hn : ¬ n = m := fun hh => hm hh.symm
        simp [hm, hn]
    | endE m =>
      simp only [runEvents, step, endElement] at h
      cases hp : lookupPos st.start_pos m with
      | none => simp [hp] at h
      | some p =>
        simp only [hp] at h
        rw [ih _ h]
        simp [startNames]
    | chars c =>
      simp only [runEvents, step] at h
      rw [ih _ h]
      simp [characters, startNames]
      by_cases hb : isBlank c <;> simp [hb]

theorem keys_foldl_attrs (attrs : List (String × String)) (name : String)
    (anns : List (String × List Value)) :
    ((attrs.foldl (fun a av => appendAnn a (name ++ ":" ++ av.1) (Value.attr av.2))
        anns).map Prod.fst)
      = (attrs.map (fun av => name ++ ":" ++ av.1)).foldl addNew (anns.map Prod.fst) := by
  induction attrs generalizing anns with
  | nil => rfl
  | cons av tl ih => simp [ih, keys_appendAnn]

/-- After a successful run the (insertion-ordered) key sequence of the
annotation store is the fold of `addNew` over the keys the events touch. -/
theorem keys_runEvents (es : List Event) (st st2 : State)
    (h : runEvents st es = Except.ok st2) :
    st2.annotations.map Prod.fst =
      (keysTouched es).foldl addNew (st.annotations.map Prod.fst) := by
  induction es generalizing st with
  | nil =>
    simp only [runEvents, Except.ok.injEq] at h
    subst h
    rfl
  | cons e tl ih =>
    cases e with
    | startE m attrs =>
      simp only [runEvents, step] at h
      rw [ih _ h]
      simp [startElement, keysTouched, keys_foldl_attrs, List.foldl_append]
    | endE m =>
      simp only [runEvents, step, endElement] at h
      cases hp : lookupPos st.start_pos m with
      | none => simp [hp] at h
      | some p =>
        simp only [hp] at h
        rw [ih _ h]
        simp [keysTouched, keys_appendAnn]
    | chars c =>
      simp only [runEvents, step] at h
      rw [ih _ h]
      simp only [keysTouched]
      by_cases hb : isBlank c <;> simp [characters, hb]

/-- Invariant: `text_len` equals the length of the accumulated text throughout any
successful run. -/
theorem text_len_invariant (es : List Event) (st st2 : State)
    (h : runEvents st es = Except.ok st2)
    (hlen : st.text_len = (getText st).length) :
    st2.text_len = (getText st2).length := by
  induction es generalizing st with
  | nil =>
    simp only [runEvents, Except.ok.injEq] at h
    subst h
    exact hlen
  | cons e tl ih =>
    cases e with
    | startE m attrs =>
      simp only [runEvents, step] at h
      exact ih _ h hlen
    | endE m =>
      simp only [runEvents, step, endElement] at h
      cases hp : lookupPos st.start_pos m with
      | none => simp [hp] at h
      | some p =>
        simp only [hp] at h
        exact ih _ h hlen
    | chars c =>
      simp only [runEvents, step] at h
      refine ih _ h ?_
      unfold characters
      by_cases hb : isBlank c
      · simpa [hb]
      · simp [hb, getText, concatList_append, String.length_append, hlen]

theorem characters_annotations (st : State) (c : String) :
    (characters st c).annotations = st.annotations := by
  unfold characters
  by_cases hb : isBlank c <;> simp [hb]

/-! ## Lemmas about well-formed event streams -/

theorem WF_mem_endNames {es : List Event} (h : WF es) (n : String) :
    n ∈ endNames es ↔ n ∈ startNames es := by
  induction h with
  | nil => simp [startNames, endNames]
  | chars c h ih => simpa [startNames, endNames] using ih
  | elem m attrs hinner hrest ihinner ihrest =>
    simp only [startNames, endNames, startNames_append, endNames_append,
      List.mem_append, List.mem_cons, ihinner, ihrest]
    tauto

/-- A well-formed stream runs to completion from any state: within such a
stream every end event is preceded by a start event of the same name, and
`start_pos` entries are never removed. -/
theorem WF_runEvents_ok {es : List Event} (h : WF es) :
    ∀ st : State, ∃ st2, runEvents st es = Except.ok st2 := by
  induction h with
  | nil => exact fun st => ⟨st, rfl⟩
  | chars c h ih =>
    intro st
    obtain ⟨st2, h2⟩ := ih (characters st c)
    exact ⟨st2, by simpa [runEvents, step] using h2⟩
  | elem n attrs hinner hrest ihinner ihrest =>
    intro st
    obtain ⟨st2, h2⟩ := ihinner (startElement st n attrs)
    have hpos1 : (lookupPos (startElement st n attrs).start_pos n).isSome := by
      simp [startElement, lookupPos_setPos]
    have hpos2 : (lookupPos st2.start_pos n).isSome := by
      rw [posKeys_runEvents _ _ _ n h2]
      exact Or.inl hpos1
    obtain ⟨p, hp⟩ := Option.isSome_iff_exists.mp hpos2
    obtain ⟨st4, h4⟩ := ihrest { st2 with
      annotations := appendAnn st2.annotations n
        (Value.span ((p, st2.open_tags), (st2.text_len, st2.open_tags))),
      open_tags := st2.open_tags - 1 }
    refine ⟨st4, ?_⟩
    simp only [runEvents, step]
    rw [runEvents_append, h2]
    simp only [runEvents, step, endElement, hp]
    exact h4

/-! ## The span-depth invariant -/

theorem appendAnn_values_cases (anns : List (String × List Value)) (k : String) (v : Value) :
    ∀ p ∈ appendAnn anns k v, ∀ w ∈ p.2, w = v ∨ ∃ q ∈ anns, w ∈ q.2 := by
  induction anns with
  | nil =>
    intro p hp w hw
    simp only [appendAnn, List.mem_singleton] at hp
    subst hp
    simp only [List.mem_singleton] at hw
    exact Or.inl hw
  | cons hd tl ih =>
    obtain ⟨k2, vs⟩ := hd
    intro p hp w hw
    by_cases h2 : k2 = k
    · subst h2
      have hp2 : p ∈ (k2, vs ++ [v]) :: tl := by simpa [appendAnn] using hp
      rcases List.mem_cons.mp hp2 with hp3 | hp3
      · subst hp3
        rcases List.mem_append.mp hw with hw2 | hw2
        · exact Or.inr ⟨(k2, vs), List.mem_cons_self _ _, hw2⟩
        · exact Or.inl (List.mem_singleton.mp hw2)
      · exact Or.inr ⟨p, List.mem_cons_of_mem _ hp3, hw⟩
    · have hp2 : p ∈ (k2, vs) :: appendAnn tl k v := by simpa [appendAnn, h2] using hp
      rcases List.mem_cons.mp hp2 with hp3 | hp3
      · subst hp3
        exact Or.inr ⟨(k2, vs), List.mem_cons_self _ _, hw⟩
      · rcases ih p hp3 w hw with h | ⟨q, hq, hwq⟩
        · exact Or.inl h
        · exact Or.inr ⟨q, List.mem_cons_of_mem _ hq, hwq⟩

theorem valuesOk_appendAnn (anns : List (String × List Value)) (k : String) (v : Value)
    (h : valuesOk anns) (hv : depthsEqual v = true) : valuesOk (appendAnn anns k v) := by
  intro p hp w hw
  rcases appendAnn_values_cases anns k v p hp w hw with rfl | ⟨q, hq, hwq⟩
  · exact hv
  · exact h q hq w hwq

theorem valuesOk_foldl_attrs (attrs : List (String × String)) (name : String)
    (anns : List (String × List Value)) (h : valuesOk anns) :
    valuesOk (attrs.foldl
      (fun a av => appendAnn a (name ++ ":" ++ av.1) (Value.attr av.2)) anns) := by
  induction attrs generalizing anns with
  | nil => exact h
  | cons av tl ih => exact ih _ (valuesOk_appendAnn _ _ _ h rfl)

theorem valuesOk_runEvents (es : List Event) (st st2 : State)
    (h : runEvents st es = Except.ok st2) (hinv : valuesOk st.annotations) :
    valuesOk st2.annotations := by
  induction es generalizing st with
  | nil =>
    simp only [runEvents, Except.ok.injEq] at h
    subst h
    exact hinv
  | cons e tl ih =>
    cases e with
    | startE m attrs =>
      simp only [runEvents, step] at h
      exact ih _ h (valuesOk_foldl_attrs _ _ _ hinv)
    | endE m =>
      simp only [runEvents, step, endElement] at h
      cases hp : lookupPos st.start_pos m with
      | none => simp [hp] at h
      | some p =>
        simp only [hp] at h
        exact ih _ h (valuesOk_appendAnn _ _ _ hinv (by simp [depthsEqual]))
    | chars c =>
      simp only [runEvents, step] at h
      refine ih _ h ?_
      rw [characters_annotations]
      exact hinv

theorem annVals_foldl_attrs (attrs : List (String × String)) (name a : String)
    (anns : List (String × List Value)) :
    annVals (attrs.foldl
        (fun an av => appendAnn an (name ++ ":" ++ av.1) (Value.attr av.2)) anns)
        (name ++ ":" ++ a)
      = annVals anns (name ++ ":" ++ a)
        ++ (attrs.filter (fun av => av.1 = a)).map (fun av => Value.attr av.2) := by
  induction attrs generalizing anns with
  | nil => simp
  | cons av tl ih =>
    obtain ⟨b, v⟩ := av
    by_cases hb : b = a
    · subst hb
      simp only [List.foldl_cons, List.filter_cons, decide_True, if_pos rfl]
      rw [ih]
      simp [annVals, lookupAnn_appendAnn]
    · have hkey : ¬ (name ++ ":" ++ b = name ++ ":" ++ a) := fun hh =>
        hb (string_append_cancel_left (name ++ ":") hh)
      simp only [List.foldl_cons, List.filter_cons]
      rw [ih]
      simp [annVals, lookupAnn_appendAnn, hkey, hb]

/-! ## The claims -/

/-- Claim C1: the claim states that same-name nested elements are paired
start-to-end in LIFO order, an end event pairing with the nearest
unmatched start of that name.  The code refutes this: `start_pos` keeps a
single slot per element name, so in the stream for
`<a id="1">P<a id="2">X</a>Y</a>` the outer start is recorded at offset 0
(third conjunct) but is overwritten by the inner start at offset 1, and
the end event of the outer element emits the span `((1,1),(3,1))` instead
of one starting at offset 0.  (In the literal example of the claim, with
no text before the inner start, both starts record offset 0 and the
overwrite is invisible.) -/
theorem end_event_pairs_with_overwritten_start :
    ∃ st, runEvents initState
        [Event.startE "a" [("id","1")], Event.chars "P",
         Event.startE "a" [("id","2")], Event.chars "X", Event.endE "a",
         Event.chars "Y", Event.endE "a"] = Except.ok st
      ∧ lookupPos (startElement initState "a" [("id","1")]).start_pos "a" = some 0
      ∧ lookupAnn st.annotations "a"
          = some [Value.span ((1,2),(2,2)), Value.span ((1,1),(3,1))]
      ∧ getText st = "PXY" := by
  exact ⟨_, rfl, rfl, rfl, rfl⟩

/-- Claim C2: the claim states that slicing the final flattened text with
the emitted span offsets recovers exactly the character data between the
start and matching end of every element.  The code refutes the substring
part: for `<a id="1">P<a id="2">X</a>Y</a>` the flattened content between
the outer start tag and its end tag is `"PXY"`, but the emitted outer
span is `((1,1),(3,1))` and slicing yields only `"XY"`. -/
theorem outer_span_slice_misses_leading_text :
    ∃ st, runEvents initState
        [Event.startE "a" [("id","1")], Event.chars "P",
         Event.startE "a" [("id","2")], Event.chars "X", Event.endE "a",
         Event.chars "Y", Event.endE "a"] = Except.ok st
      ∧ getText st = "PXY"
      ∧ lookupAnn st.annotations "a"
          = some [Value.span ((1,2),(2,2)), Value.span ((1,1),(3,1))]
      ∧ pySlice (getText st) 1 3 = "XY"
      ∧ ("XY" : String) ≠ "PXY" := by
  exact ⟨_, rfl, rfl, rfl, rfl, by decide⟩

/-- Claim C3: the claim states that an end event with no corresponding
unmatched start raises a fatal error and appends no span.  The code
refutes this: recorded starts are never removed, so in
`<a></a></a>` the second end event for `a` finds the stale entry, is
silently tolerated, appends the bogus span `((0,0),(0,0))` and drives
`open_tags` to `-1`.  Only a name that never occurred as a start at all
raises `KeyError` (second conjunct). -/
theorem orphan_end_event_silently_emits_span :
    (∃ st, runEvents initState [Event.startE "a" [], Event.endE "a", Event.endE "a"]
        = Except.ok st
      ∧ lookupAnn st.annotations "a"
          = some [Value.span ((0,1),(0,1)), Value.span ((0,0),(0,0))]
      ∧ st.open_tags = -1)
    ∧ runEvents initState [Event.endE "a"] = Except.error PyErr.keyError := by
  exact ⟨⟨_, rfl, rfl, rfl⟩, rfl⟩

/-- Claim C4: the flattened-text accumulator discards chunks consisting
entirely of whitespace (state unchanged), treats the empty chunk as a
no-op on the final text and the current offset, appends any other chunk
verbatim while increasing the offset by its length, and keeps the
invariant that the current offset equals the length of the accumulated
text after any successful run. -/
theorem characters_whitespace_discipline :
    (∀ (st : State) (c : String), isBlank c = true → characters st c = st)
    ∧ (∀ st : State, getText (characters st "") = getText st
        ∧ (characters st "").text_len = st.text_len)
    ∧ (∀ (st : State) (c : String), isBlank c = false →
        characters st c
          = { st with text := st.text ++ [c], text_len := st.text_len + c.length })
    ∧ (∀ (es : List Event) (st : State), runEvents initState es = Except.ok st →
        st.text_len = (getText st).length) := by
  refine ⟨?_, ?_, ?_, ?_⟩
  · intro st c hc
    simp [characters, hc]
  · intro st
    have hb : isBlank "" = false := rfl
    have hl : ("" : String).length = 0 := rfl
    constructor
    · simp [characters, hb, getText, concatList_append]
    · simp [characters, hb, hl]
  · intro st c hc
    simp [characters, hc]
  · intro es st h
    exact text_len_invariant es initState st h rfl

/-- Witness for claim C4 at concrete inputs: a pure-whitespace chunk is
discarded, the empty chunk leaves text and offset unchanged, a non-blank
chunk is appended with its length counted, and the offset-length
invariant holds after a concrete run. -/
theorem characters_whitespace_discipline_witness :
    characters initState " " = initState
    ∧ (getText (characters initState "") = getText initState
        ∧ (characters initState "").text_len = initState.text_len)
    ∧ characters initState "ab"
        = { initState with text := initState.text ++ ["ab"],
                           text_len := initState.text_len + "ab".length }
    ∧ (∃ st, runEvents initState [Event.chars "ab"] = Except.ok st
        ∧ st.text_len = (getText st).length) :=
  ⟨characters_whitespace_discipline.1 initState " " rfl,
   characters_whitespace_discipline.2.1 initState,
   characters_whitespace_discipline.2.2.1 initState "ab" rfl,
   ⟨_, rfl, characters_whitespace_discipline.2.2.2 [Event.chars "ab"] _ rfl⟩⟩

/-- Claim C5: on every start event each attribute pair `(a, v)` is
immediately appended as the string `v` under the key `name:a` (first
conjunct: the values under `name:a` after the start event are the
previous values followed by the values of the attributes named `a`, in
order); and the document `<a id="1" id2="2">text</a>` produces
`a:id = ["1"]`, `a:id2 = ["2"]` and one `a` span covering `"text"`. -/
theorem attribute_values_appended_on_start :
    (∀ (st : State) (name : String) (attrs : List (String × String)) (a : String),
      annVals (startElement st name attrs).annotations (name ++ ":" ++ a)
        = annVals st.annotations (name ++ ":" ++ a)
          ++ (attrs.filter (fun av => av.1 = a)).map (fun av => Value.attr av.2))
    ∧ (∃ st, runEvents initState
        [Event.startE "a" [("id","1"),("id2","2")], Event.chars "text", Event.endE "a"]
          = Except.ok st
      ∧ lookupAnn st.annotations "a:id" = some [Value.attr "1"]
      ∧ lookupAnn st.annotations "a:id2" = some [Value.attr "2"]
      ∧ lookupAnn st.annotations "a" = some [Value.span ((0,1),(4,1))]
      ∧ pySlice (getText st) 0 4 = "text") := by
  constructor
  · intro st name attrs a
    exact annVals_foldl_attrs attrs name a st.annotations
  · exact ⟨_, rfl, rfl, rfl, rfl, rfl⟩

/-- Claim C6: the claim states that a second parser instance starts from
fresh empty state, so a second document parses identically to a fresh
system.  The code refutes this: `text`, `annotations` and `start_pos` are
class-level collections mutated in place, so after parsing `<a>x</a>`
a second instance parsing `<b>y</b>` writes the text `"xy"` and a
structure containing the key `a` of the first document, while a fresh
system writes `"y"` and `["b"]`. -/
theorem second_document_sees_first_documents_state :
    ∃ out1 cs1 out2 cs2 outF csF,
      parse initClass [Event.startE "a" [], Event.chars "x", Event.endE "a"]
          = Except.ok (out1, cs1)
      ∧ parse cs1 [Event.startE "b" [], Event.chars "y", Event.endE "b"]
          = Except.ok (out2, cs2)
      ∧ parse initClass [Event.startE "b" [], Event.chars "y", Event.endE "b"]
          = Except.ok (outF, csF)
      ∧ out2.text = "xy"
      ∧ outF.text = "y"
      ∧ out2.struct = ["a", "b"]
      ∧ outF.struct = ["b"]
      ∧ out2 ≠ outF := by
  refine ⟨_, _, _, _, _, _, rfl, rfl, rfl, rfl, rfl, rfl, rfl, by decide⟩

/-- Claim C7: for a well-formed event stream the parse succeeds and the
per-document structure output is the sequence of distinct annotation keys
in first-seen (first-insertion) order, each key once, and the set of keys
is exactly the element names together with the element:attribute
combinations of the document. -/
theorem structure_is_first_seen_keys (es : List Event) (h : WF es) :
    ∃ out cs, parse initClass es = Except.ok (out, cs)
      ∧ out.struct = firstSeen (keysTouched es)
      ∧ out.struct.Nodup
      ∧ (∀ k, k ∈ out.struct ↔ k ∈ startNames es ∨ k ∈ attrKeys es) := by
  obtain ⟨st, hst⟩ := WF_runEvents_ok h initState
  have hkeys : st.annotations.map Prod.fst = firstSeen (keysTouched es) := by
    have hk := keys_runEvents es initState st hst
    simpa [initState, newParser, initClass, firstSeen] using hk
  refine ⟨⟨getText st, st.annotations.map Prod.fst, st.annotations⟩, classOf st,
    ?_, hkeys, ?_, ?_⟩
  · unfold parse
    have hst2 : runEvents (newParser initClass) es = Except.ok st := hst
    rw [hst2]
  · show (st.annotations.map Prod.fst).Nodup
    rw [hkeys]
    unfold firstSeen
    exact nodup_foldl_addNew _ _ List.nodup_nil
  · intro k
    show k ∈ st.annotations.map Prod.fst ↔ _
    rw [hkeys]
    unfold firstSeen
    rw [mem_foldl_addNew, mem_keysTouched, WF_mem_endNames h]
    simp

/-- Witness for claim C7 at the concrete well-formed document
`<a id="1">x</a>`. -/
theorem structure_is_first_seen_keys_witness :
    ∃ out cs, parse initClass
        [Event.startE "a" [("id","1")], Event.chars "x", Event.endE "a"]
          = Except.ok (out, cs)
      ∧ out.struct = firstSeen (keysTouched
          [Event.startE "a" [("id","1")], Event.chars "x", Event.endE "a"])
      ∧ out.struct.Nodup
      ∧ (∀ k, k ∈ out.struct ↔
          k ∈ startNames [Event.startE "a" [("id","1")], Event.chars "x", Event.endE "a"]
          ∨ k ∈ attrKeys [Event.startE "a" [("id","1")], Event.chars "x", Event.endE "a"]) :=
  structure_is_first_seen_keys _
    (@WF.elem "a" [("id","1")] [Event.chars "x"] []
      (WF.chars "x" WF.nil) WF.nil)

/-- Claim C9: every span in the annotation store after any successful
event sequence has equal start and end depth components, because both
components are read from the same `open_tags` value when the end event is
processed. -/
theorem span_depth_components_equal (es : List Event) (st : State)
    (h : runEvents initState es = Except.ok st) (k : String) (vs : List Value)
    (hvs : lookupAnn st.annotations k = some vs) :
    ∀ v ∈ vs, depthsEqual v = true := by
  intro v hv
  have hOk : valuesOk st.annotations := by
    refine valuesOk_runEvents es initState st h ?_
    intro p hp
    simp [initState, newParser, initClass] at hp
  exact hOk (k, vs) (lookupAnn_mem _ _ _ hvs) v hv

/-- Witness for claim C9 at the concrete document `<a>x</a>`: the single
emitted span has equal depth components. -/
theorem span_depth_components_equal_witness :
    depthsEqual (Value.span ((0,1),(1,1))) = true :=
  span_depth_components_equal
    [Event.startE "a" [], Event.chars "x", Event.endE "a"] _ rfl "a"
    [Value.span ((0,1),(1,1))] rfl (Value.span ((0,1),(1,1)))
    (List.mem_singleton.mpr rfl)

/-- Claim C10: pending-start markers are never removed — after any
successful run a name is recorded in `start_pos` iff it was recorded
before the run or occurred as a start event in it (first conjunct); an
end event fails with `KeyError` iff the name never occurred as a start
earlier in the stream (second conjunct); and an end event for a recorded
name always succeeds, emitting a span that reuses the recorded (possibly
stale) start offset (third conjunct). -/
theorem pending_starts_never_removed :
    (∀ (es : List Event) (st st2 : State) (n : String), runEvents st es = Except.ok st2 →
      ((lookupPos st2.start_pos n).isSome ↔
        (lookupPos st.start_pos n).isSome ∨ n ∈ startNames es))
    ∧ (∀ (es : List Event) (st : State) (n : String), runEvents initState es = Except.ok st →
      (endElement st n = Except.error PyErr.keyError ↔ n ∉ startNames es))
    ∧ (∀ (st : State) (n : String) (p : Nat), lookupPos st.start_pos n = some p →
      endElement st n = Except.ok { st with
        annotations := appendAnn st.annotations n
          (Value.span ((p, st.open_tags), (st.text_len, st.open_tags))),
        open_tags := st.open_tags - 1 }) := by
  refine ⟨fun es st st2 n h => posKeys_runEvents es st st2 n h, ?_, ?_⟩
  · intro es st n h
    have hiff := posKeys_runEvents es initState st n h
    simp only [initState, newParser, initClass, lookupPos, Option.isSome_none,
      Bool.false_eq_true, false_or] at hiff
    constructor
    · intro herr hmem
      have hsome := hiff.mpr hmem
      rcases Option.isSome_iff_exists.mp hsome with ⟨p, hp⟩
      simp [endElement, hp] at herr
    · intro hmem
      have hnone : lookupPos st.start_pos n = none := by
        cases hcase : lookupPos st.start_pos n with
        | none => rfl
        | some p => exact absurd (hiff.mp (by simp [hcase])) hmem
      simp [endElement, hnone]
  · intro st n p hp
    simp [endElement, hp]

/-- Witness for claim C10, instantiated at the state left by `<a>x</a>`:
the recorded start of `a` persists after its element has closed, an end
event for the never-started `b` raises `KeyError`, and an end event for
the already-closed `a` succeeds, reusing the stale offset 0. -/
theorem pending_starts_never_removed_witness :
    ((lookupPos exampleDocState.start_pos "a").isSome ↔
        (lookupPos initState.start_pos "a").isSome
          ∨ "a" ∈ startNames [Event.startE "a" [], Event.chars "x", Event.endE "a"])
    ∧ (endElement exampleDocState "b" = Except.error PyErr.keyError ↔
        "b" ∉ startNames [Event.startE "a" [], Event.chars "x", Event.endE "a"])
    ∧ endElement exampleDocState "a"
        = Except.ok { exampleDocState with
            annotations := [("a", [Value.span ((0,1),(1,1)), Value.span ((0,0),(1,0))])],
            open_tags := -1 } :=
  ⟨pending_starts_never_removed.1
      [Event.startE "a" [], Event.chars "x", Event.endE "a"] initState _ "a" rfl,
   pending_starts_never_removed.2.1
      [Event.startE "a" [], Event.chars "x", Event.endE "a"] _ "b" rfl,
   pending_starts_never_removed.2.2 _ "a" 0 rfl⟩

/-- Claim C8: the claim states that the structure-discovery pass records
the element name for attributeless tags, the element:attribute pairs
otherwise, and completes without error on any well-formed document.  The
code refutes the error-freedom part: the attributeless branch evaluates
`self.attributes`, a field that does not exist (the class defines
`annotations`), so any well-formed document containing an element without
attributes raises `AttributeError` (first conjunct); elements with
attributes are recorded as element:attribute pairs (second conjunct). -/
theorem attributeless_element_raises_attribute_error :
    structRun [] [Event.startE "a" []] = Except.error PyErr.attributeError
    ∧ structRun [] [Event.startE "a" [("id","1")], Event.chars "t", Event.endE "a"]
        = Except.ok ["a:id"] := by
  exact ⟨rfl, rfl⟩

end SaxImport
